import Mathlib

set_option maxRecDepth 100000

/-!
Verification of the name-normalization and anomaly-detection pipeline of
`paranames` (`paranames/analysis/script_analysis.py` and
`scripts/analysis/test_flyingsquid.py`).

The Python code is shallowly embedded: strings are Lean `String`s manipulated
through their underlying `List Char`, Python `None`-able values are `Option`s,
exceptions raised by the adapters are `Except` errors, and the behaviour of the
external subprocesses (uroman, fast_align) is a parameter (their raw stdout),
since the adapters' logic is a pure function of that stdout.
-/

namespace ScriptAnalysis

/-- Characters stripped by Python's `str.strip()` / split on by `str.split()`:
the CPython whitespace table (ASCII whitespace, the C1 separators 0x1c-0x1f,
NEL, NBSP and the Unicode space separators). -/
def pyIsSpace (c : Char) : Bool :=
  c ∈ [' ', '\t', '\n', '\r', '\x0b', '\x0c',
       '\x1c', '\x1d', '\x1e', '\x1f', '\x85', '\xa0',
       ' ', ' ', ' ', ' ', ' ', ' ', ' ',
       ' ', ' ', ' ', ' ', ' ',
       ' ', ' ', ' ', ' ', '　']

/-- One-sided helper for Python `str.strip`: drop the leading run of
characters satisfying `p`, then reverse. Composing it with itself strips
both ends. -/
def revDrop (p : Char → Bool) (l : List Char) : List Char :=
  (l.dropWhile p).reverse

/-- Python `str.strip(<set>)` on a character list: remove the leading and
trailing runs of characters satisfying `p`. -/
def stripList (p : Char → Bool) (l : List Char) : List Char :=
  revDrop p (revDrop p l)

/-- Python `s.strip(chars)` at the `String` level. -/
def py_strip (p : Char → Bool) (s : String) : String :=
  ⟨stripList p s.data⟩

/-- Python `s.strip()` (default whitespace stripping). -/
def py_strip_ws (s : String) : String :=
  py_strip pyIsSpace s

/-- Python `s.strip(",").strip()` as used by `PermuteLowestDistance`. -/
def py_strip_cs (s : String) : String :=
  py_strip_ws (py_strip (fun c => c == ',') s)

/-- Python `s.split(sep)` with an explicit one-character separator:
split at every occurrence, keeping empty pieces. -/
def py_split_char (sep : Char) (s : String) : List String :=
  (List.splitOnP (fun c => c == sep) s.data).map (fun l => (⟨l⟩ : String))

/-- Python `s.split()` (no argument): split on runs of whitespace,
discarding empty pieces. -/
def py_split_ws (s : String) : List String :=
  ((List.splitOnP pyIsSpace s.data).filter (fun l => l ≠ [])).map
    (fun l => (⟨l⟩ : String))

/-- Python `int(x)` on the non-negative digit strings that occur in
fast_align output tokens (`None` models the `ValueError` raised otherwise). -/
def py_int? (s : String) : Option Nat :=
  if s.data ≠ [] ∧ s.data.all (fun c => c.isDigit) then
    some (s.data.foldl (fun a c => a * 10 + (c.toNat - 48)) 0)
  else
    none

/-- Option-valued traversal (models a Python list comprehension whose body
may raise: the first failure aborts the whole computation). -/
def mapO (f : α → Option β) : List α → Option (List β)
  | [] => some []
  | a :: as =>
    match f a, mapO f as with
    | some b, some bs => some (b :: bs)
    | _, _ => none

/-- Inner loop of the Levenshtein dynamic program: given the previous row
tail `prev`, the diagonal entry `diag` and the entry `left` just computed,
produce the rest of the next row. -/
def levRowGo (c : Char) : List Char → Nat → List Nat → Nat → List Nat
  | [], _, _, _ => []
  | _ :: _, _, [], _ => []
  | tc :: ts, diag, pj :: ps, left =>
    let nj := min (min (pj + 1) (left + 1)) (diag + (if c = tc then 0 else 1))
    nj :: levRowGo c ts pj ps nj

/-- One row of the Levenshtein dynamic program. -/
def levRow (c : Char) (t : List Char) (prev : List Nat) : List Nat :=
  match prev with
  | [] => []
  | p0 :: ps => (p0 + 1) :: levRowGo c t p0 ps (p0 + 1)

/-- Character-level Levenshtein edit distance (unit insert/delete/substitute
costs) computed by the standard dynamic program; models `editdistance.eval`,
the default `distance_function` of `PermuteLowestDistance`. -/
def lev (s t : List Char) : Nat :=
  ((s.foldl (fun prev c => levRow c t prev) (List.range (t.length + 1))).getLast?).getD 0

/-- The distance `editdistance.eval` on `String`s. -/
def editdistance_eval (a b : String) : Nat :=
  lev a.data b.data

/-- All ways of picking one element out of a list (in position order),
paired with the remaining elements in their original order. -/
def picks : List α → List (α × List α)
  | [] => []
  | x :: xs => (x, xs) :: (picks xs).map (fun p => (p.1, x :: p.2))

/-- Fueled recursion for `pyPermutations`; the fuel is the list length. -/
def pyPermsAux : Nat → List α → List (List α)
  | 0, _ => [[]]
  | _ + 1, [] => [[]]
  | n + 1, l => (picks l).flatMap (fun p => (pyPermsAux n p.2).map (p.1 :: ·))

/-- Python `itertools.permutations`: all permutations, enumerated in
lexicographic order of the picked positions (`abc, acb, bac, bca, cab, cba`). -/
def pyPermutations (l : List α) : List (List α) :=
  pyPermsAux l.length l

/-- Python `" ".join(tokens)`. -/
def join_sp (l : List String) : String :=
  String.intercalate " " l

/-- Stable insertion into an ascending list: `x` goes in front of the first
element `y` with `le x y`, so among `le`-equivalent elements the earlier
original element stays first. -/
def insertS (le : α → α → Bool) (x : α) : List α → List α
  | [] => [x]
  | y :: ys => if le x y then x :: y :: ys else y :: insertS le x ys

/-- Stable ascending sort; models Python's stable `sorted(...)`. -/
def insSort (le : α → α → Bool) : List α → List α
  | [] => []
  | x :: xs => insertS le x (insSort le xs)

/-- Configuration of `UnicodeAnalyzer.__init__`. -/
structure UnicodeAnalyzer where
  strip : Bool := false
  ignore_punctuation : Bool := false
  ignore_numbers : Bool := false
  normalize_histogram : Bool := true
deriving DecidableEq, Repr

/-- The character tables the analyzer consults: `unicodedata.category` and
`unicodeblock.blocks.of` (the latter is `None` on characters with no block).
Both are external read-only data, so they are a parameter of the embedding. -/
structure UnicodeData where
  category : Char → String
  blockOf : Char → Option String

/-- Python `str.startswith` (prefix test on the character lists). -/
def py_startswith (s pre : String) : Bool :=
  pre.data.isPrefixOf s.data

/-- Method `UnicodeAnalyzer.is_punctuation`: category starts with `P` or `S`. -/
def UnicodeAnalyzer.is_punctuation (ud : UnicodeData) (c : Char) : Bool :=
  py_startswith (ud.category c) "P" || py_startswith (ud.category c) "S"

/-- Method `UnicodeAnalyzer.is_number`: category starts with `N`. -/
def UnicodeAnalyzer.is_number (ud : UnicodeData) (c : Char) : Bool :=
  py_startswith (ud.category c) "N"

/-- Method `UnicodeAnalyzer.maybe_strip`. -/
def UnicodeAnalyzer.maybe_strip (a : UnicodeAnalyzer) (word : String) : String :=
  if a.strip then py_strip_ws word else word

/-- The filter of the generator inside `UnicodeAnalyzer.unicode_blocks`:
a character is tallied iff it has a Unicode block and survives the
configured punctuation/number filters. -/
def UnicodeAnalyzer.qualifies (a : UnicodeAnalyzer) (ud : UnicodeData) (c : Char) : Bool :=
  (ud.blockOf c).isSome
    && (if a.ignore_punctuation then !(UnicodeAnalyzer.is_punctuation ud c) else true)
    && (if a.ignore_numbers then !(UnicodeAnalyzer.is_number ud c) else true)

/-- A `collections.Counter` over block labels, with entries in first-encounter
insertion order (as Python dicts preserve). -/
def counterOf (l : List String) : List (String × Nat) :=
  l.foldl
    (fun acc b =>
      if acc.any (fun e => e.1 == b) then
        acc.map (fun e => if e.1 == b then (e.1, e.2 + 1) else e)
      else
        acc ++ [(b, 1)])
    []

/-- Method `UnicodeAnalyzer.unicode_blocks`: tally the blocks of the qualifying
characters of the (optionally stripped) word. -/
def UnicodeAnalyzer.unicode_blocks (a : UnicodeAnalyzer) (ud : UnicodeData)
    (word : String) : List (String × Nat) :=
  counterOf ((a.maybe_strip word).data.filterMap
    (fun c => if a.qualifies ud c then ud.blockOf c else none))

/-- Python `Counter.most_common`: entries sorted by count descending; Python's sort
is stable, so ties keep insertion order. -/
def most_common (h : List (String × Nat)) : List (String × Nat) :=
  insSort (fun a b => b.2 ≤ a.2) h

/-- Method `UnicodeAnalyzer.most_common_unicode_block`: head of `most_common`, or
`""` when the tally is empty (the `IndexError` branch). -/
def UnicodeAnalyzer.most_common_unicode_block (a : UnicodeAnalyzer) (ud : UnicodeData)
    (word : String) : String :=
  match most_common (a.unicode_blocks ud word) with
  | [] => ""
  | e :: _ => e.1

/-- Method `UnicodeAnalyzer.unicode_block_histogram`: the tally, each count divided
by the total iff `normalize_histogram` (the division loop body runs once per
entry, so an empty tally never divides). -/
def UnicodeAnalyzer.unicode_block_histogram (a : UnicodeAnalyzer) (ud : UnicodeData)
    (word : String) : List (String × ℚ) :=
  let histogram := a.unicode_blocks ud word
  if a.normalize_histogram then
    let total : ℚ := ((histogram.map (fun e => e.2)).sum : Nat)
    histogram.map (fun e => (e.1, (e.2 : ℚ) / total))
  else
    histogram.map (fun e => (e.1, (e.2 : ℚ)))

/-- Record `Alignment`: a raw fast_align output line plus its derived crossing
count (`__attrs_post_init__` strips the line and computes the count). -/
structure Alignment where
  alignment_str : String
  n_cross_alignments : Nat := 0
deriving DecidableEq, Repr

/-- The sort key of `Alignment.compute_cross_alignments`:
`sorted(..., key=lambda t: t[0])` over the parsed integer tuples. -/
def alignKeyLe (a b : List Nat) : Bool :=
  a.headD 0 ≤ b.headD 0

/-- Scan step of `Alignment.compute_cross_alignments`: state is
`(n_cross_alignments, max_tgt_seen)`; a tuple that is not a pair hits the
bare `except: continue` and leaves the state untouched. -/
def crossStep (st : Nat × Nat) (tok : List Nat) : Nat × Nat :=
  match tok with
  | [_, target] => ((if target < st.2 then st.1 + 1 else st.1), max st.2 target)
  | _ => st

/-- Method `Alignment.compute_cross_alignments` on the parsed alignment tuples:
sort by first component ascending (stably), then scan left to right
maintaining `max_tgt_seen`, counting tuples whose target is strictly below
it, starting from `max_tgt_seen = 0`. -/
def compute_cross_alignments (toks : List (List Nat)) : Nat :=
  ((insSort alignKeyLe toks).foldl crossStep (0, 0)).1

/-- The parse inside `compute_cross_alignments`:
`[tuple(int(x) for x in at.split("-")) for at in alignment_str.split(" ")]`;
an unparseable component raises (models as `none`). -/
def parse_alignment_str (s : String) : Option (List (List Nat)) :=
  mapO (fun at_ => mapO py_int? (py_split_char '-' at_)) (py_split_char ' ' s)

/-- Method `Alignment.__attrs_post_init__`: strip the line; an empty line keeps the
default count `0`, otherwise parse and count crossings (`none` models the
uncaught `ValueError` from `int` on a malformed line). -/
def Alignment.of_alignment_str (s : String) : Option Alignment :=
  let stripped := py_strip_ws s
  if stripped = "" then
    some { alignment_str := stripped }
  else
    (parse_alignment_str stripped).map
      (fun toks => { alignment_str := stripped,
                     n_cross_alignments := compute_cross_alignments toks })

/-- Record `TransliteratedName` with the attrs field declarations of the source in
order, including each `attr.ib` default.  The `unicode_analyzer` carries the
analyzer configuration (Python compares analyzer objects by identity; the
embedding compares their configuration). -/
structure TransliteratedName where
  text : String
  is_unchanged : Bool
  language : String
  unicode_analyzer : UnicodeAnalyzer
  wikidata_id : String := "Q0"
  conll_type : Option String := some "NONE"
  anomalous : Option Bool := none
  noise_sample : Option Bool := some false
  english_text : Option String := none
  analyze_unicode : Bool := true
  alignment : Option Alignment := none
  _original_text : Option String := none
deriving DecidableEq, Repr

/-- The `original_text` property: `self._original_text or self.text`
(Python `or`, so an empty stored string also falls back to `text`). -/
def TransliteratedName.original_text (n : TransliteratedName) : String :=
  match n._original_text with
  | some s => if s = "" then n.text else s
  | none => n.text

/-- The fatal conditions of the external-tool adapters: `ToolUnavailable`
(the `OSError` branch re-raised as `ValueError("... must be installed!")`),
the explicit `assert len(...) == len(...)`, the uncaught `ValueError` from
`int` on a malformed alignment line, and the uncaught `AttributeError` from
`None.replace` when a name has no English text. -/
inductive AdapterError where
  | toolUnavailable
  | assertionFailed
  | parseFailure
  | attributeError
deriving DecidableEq, Repr

/-- Method `UniversalRomanizer.call`, as a function of the input strings and the
raw stdout of the uroman subprocess (`none` models the binary being absent,
i.e. the `OSError` branch): zip the inputs with the newline-split stdout
(so extra stdout lines are dropped), then assert the output count equals
the input count. -/
def uroman_call (strings : List String) (stdout? : Option String) :
    Except AdapterError (List String) :=
  match stdout? with
  | none => .error .toolUnavailable
  | some out =>
    let uroman_output := (strings.zip (py_split_char '\n' out)).map (fun p => p.2)
    if uroman_output.length = strings.length then .ok uroman_output
    else .error .assertionFailed

/-- Method `FastAligner.__call__`, as a function of the input names and the raw
stdout of the fast_align subprocess (`none` models the binary being absent).
The temporary training file only feeds the external tool, so it does not
appear; the returned names are the input names with the positionally zipped
alignments attached (`name.add_alignment`), and the call asserts that as
many alignments were produced as there are names. -/
def fast_aligner_call (names : List TransliteratedName) (stdout? : Option String) :
    Except AdapterError (List Alignment × List TransliteratedName) :=
  if names.any (fun n => n.english_text.isNone) then .error .attributeError
  else
    match stdout? with
    | none => .error .toolUnavailable
    | some out =>
      let fastalign_stdout := (names.zip (py_split_char '\n' out)).map (fun p => p.2)
      match mapO Alignment.of_alignment_str fastalign_stdout with
      | none => .error .parseFailure
      | some alignments =>
        let linked := (names.zip alignments).map
          (fun p => { p.1 with alignment := some p.2 })
        if alignments.length = names.length then .ok (alignments, linked)
        else .error .assertionFailed

/-- The permutation candidates of `PermuteLowestDistance`:
`[" ".join(perm) for perm in it.permutations(tokens)]`. -/
def permuted_of (text : String) : List String :=
  (pyPermutations (py_split_ws text)).map join_sp

/-- The zipped `(permutation, romanized permutation)` pairs the inner loop
of `PermuteLowestDistance` ranges over. -/
def ed_candidates (text romanized : String) : List (String × String) :=
  (permuted_of text).zip (permuted_of romanized)

/-- Loop body of `PermuteLowestDistance._call_immutable`: state is
`(best_distance, best_name)` with `none` as the initial `np.inf`; an update
stores the permutation with its edge commas and whitespace stripped. -/
def ed_step (english_text : String) (st : Option Nat × String)
    (pr : String × String) : Option Nat × String :=
  let ed := editdistance_eval pr.2 english_text
  match st.1 with
  | none => (some ed, py_strip_cs pr.1)
  | some best_distance =>
    if ed < best_distance then (some ed, py_strip_cs pr.1) else st

/-- Loop body of `PermuteLowestDistance._call_inplace`: identical to
`ed_step` except that the winning permutation is stored verbatim. -/
def ed_step_inplace (english_text : String) (st : Option Nat × String)
    (pr : String × String) : Option Nat × String :=
  let ed := editdistance_eval pr.2 english_text
  match st.1 with
  | none => (some ed, pr.1)
  | some best_distance =>
    if ed < best_distance then (some ed, pr.1) else st

/-- One iteration of `PermuteLowestDistance._call_immutable` (lines 700-754):
a name whose token count is outside `[2, 4]` is appended to the output as
is; otherwise a fresh record is built around the best-permutation text
(the remaining attrs fields take their declared defaults).  The English
reference is assumed present: the Python code would raise `TypeError`
inside `editdistance.eval` on `None`. -/
def permute_lowest_one (name : TransliteratedName) (romanized_name : String) :
    TransliteratedName :=
  let tokens := py_split_ws name.text
  if 2 ≤ tokens.length ∧ tokens.length ≤ 4 then
    let best := (ed_candidates name.text romanized_name).foldl
      (ed_step (name.english_text.getD "")) (none, name.text)
    { text := best.2,
      language := name.language,
      unicode_analyzer := name.unicode_analyzer,
      anomalous := name.anomalous,
      noise_sample := name.noise_sample,
      english_text := name.english_text,
      is_unchanged := best.2 == name.text,
      _original_text := some name.text }
  else name

/-- Method `PermuteLowestDistance._call_immutable` over a batch: the names zipped
with the romanizer's outputs. -/
def permute_lowest_call_immutable (names : List TransliteratedName)
    (romanized_names : List String) : List TransliteratedName :=
  (names.zip romanized_names).map (fun p => permute_lowest_one p.1 p.2)

/-- One iteration of `PermuteLowestDistance._call_inplace` (lines 764-797):
out-of-range names are skipped (`continue`), in-range names are mutated in
place (`text`, `is_unchanged`, `original_text`; all other fields keep their
current values), and the winning permutation is not comma/whitespace
stripped. -/
def permute_lowest_one_inplace (name : TransliteratedName)
    (romanized_name : String) : TransliteratedName :=
  let tokens := py_split_ws name.text
  if 2 ≤ tokens.length ∧ tokens.length ≤ 4 then
    let best := (ed_candidates name.text romanized_name).foldl
      (ed_step_inplace (name.english_text.getD "")) (none, name.text)
    { name with
      text := best.2,
      is_unchanged := best.2 == name.text,
      _original_text := some name.text }
  else name

/-- Index of the last element satisfying `q` (the position the greedy `.*`
of the regex backtracks to). -/
def lastIdx? (q : Char → Bool) (l : List Char) : Option Nat :=
  match l.reverse.findIdx? q with
  | none => none
  | some k => some (l.length - 1 - k)

/-- Given the characters after a `'('`, find the last `')'` reachable
without crossing a newline (Python `.` does not match `"\n"`), and return
the remainder after it; `none` when the regex cannot close the span here. -/
def lineCloseSplit (rest : List Char) : Option (List Char) :=
  match lastIdx? (fun c => c == ')') (rest.takeWhile (fun c => c ≠ '\n')) with
  | none => none
  | some j => some (rest.drop (j + 1))

/-- Fueled scan of `re.sub(r"\(.*\)", "", string)`: at each `'('` that can
close a greedy span on the same line (up to the last `')'` before the next
newline, since Python `.` does not match `"\n"`), drop the span and resume
after it; otherwise keep the character.  The fuel bounds the number of
characters still to be consumed, so `length l` fuel always suffices. -/
def reSubAux : Nat → List Char → List Char
  | 0, _ => []
  | _ + 1, [] => []
  | n + 1, c :: rest =>
    if c = '(' ∧ (lineCloseSplit rest).isSome then
      reSubAux n ((lineCloseSplit rest).getD [])
    else
      c :: reSubAux n rest

/-- Python `re.sub(r"\(.*\)", "", string)` on a character list. -/
def reSub (l : List Char) : List Char :=
  reSubAux l.length l

/-- A string contains a match of `r"\(.*\)"` iff some `'('` is followed by
a `')'` with no newline in between. -/
def hasMatch : List Char → Bool
  | [] => false
  | c :: rest =>
    if c = '(' ∧ ')' ∈ rest.takeWhile (fun x => x ≠ '\n') then true
    else hasMatch rest

/-- Method `ParenthesisRemover.process`: remove every parenthesis span, then
`str.strip()`. -/
def ParenthesisRemover.process (s : String) : String :=
  py_strip_ws ⟨reSub s.data⟩

/-- Method `AnomalousTagger.__call__` (lines 1011-1024): each output record copies
`text`, `unicode_analyzer`, `language` and `is_unchanged` from the input,
stores the classification in `anomalous`, and leaves every other field at
its constructor default. -/
def anomalous_tagger_call (classify : TransliteratedName → Option Bool)
    (names : List TransliteratedName) : List TransliteratedName :=
  names.map (fun n =>
    { text := n.text,
      unicode_analyzer := n.unicode_analyzer,
      anomalous := classify n,
      language := n.language,
      is_unchanged := n.is_unchanged })

/-- The integer vote encoding of `test_flyingsquid.yield_preds`:
abstain `0`, anomalous `1`, not-anomalous `-1`. -/
def vote_int : Option Bool → Int
  | none => 0
  | some true => 1
  | some false => -1

/-- The test script's `majority_vote_preds = (noisy_votes.mean(axis=1) > 0)` for one name's
row of tagger votes.  The float mean of the integer votes is positive iff
their sum is (and NumPy's mean of an empty row is NaN, which also compares
false against 0), so the comparison is embedded as `0 < sum`. -/
def majority_vote_preds (votes : List (Option Bool)) : Bool :=
  decide (0 < (votes.map vote_int).sum)

/-- The `__eq__` that `@attr.s` generates for `TransliteratedName`: all
twelve declared attrs fields are compared (every `attr.ib` here has the
default `eq=True`).  Note the hand-written `__hash__` based on
`text + language` is overridden by the attrs-generated one, since
`hash=True` makes the decorator install its own `__hash__` on the class it
rebuilds for `slots=True`. -/
def attrs_eq (a b : TransliteratedName) : Bool :=
  a.text == b.text && a.is_unchanged == b.is_unchanged
    && a.language == b.language && a.unicode_analyzer == b.unicode_analyzer
    && a.wikidata_id == b.wikidata_id && a.conll_type == b.conll_type
    && a.anomalous == b.anomalous && a.noise_sample == b.noise_sample
    && a.english_text == b.english_text && a.analyze_unicode == b.analyze_unicode
    && a.alignment == b.alignment && a._original_text == b._original_text

/-- A fixed analyzer configuration with both character filters switched on
(`ignore_punctuation=True, ignore_numbers=True`). -/
def filteringAnalyzer : UnicodeAnalyzer :=
  { strip := false, ignore_punctuation := true, ignore_numbers := true,
    normalize_histogram := true }

/-- A miniature stand-in for the `unicodedata`/`unicodeblock` tables, enough
to classify digits (`Nd`), a full stop (`Po`) and uppercase letters (`Lu`);
every character lies in `BASIC_LATIN`. -/
def miniUnicodeData : UnicodeData :=
  { category := fun c => if c.isDigit then "Nd" else if c = '.' then "Po" else "Lu",
    blockOf := fun _ => some "BASIC_LATIN" }

/-- A one-token name whose `is_unchanged` flag is already `False` when it
reaches the edit-distance permuter (as happens after an earlier permuter
stage has modified it). -/
def oneTokenName : TransliteratedName :=
  { text := "Single", is_unchanged := false, language := "xx",
    unicode_analyzer := {}, english_text := some "Single" }

/-- A name ready for the aligner (it has an English reference). -/
def alignableName : TransliteratedName :=
  { text := "ab", is_unchanged := true, language := "xx",
    unicode_analyzer := {}, english_text := some "ab" }

/-- A fully populated name record, used to observe which fields survive a
tagger call. -/
def richName : TransliteratedName :=
  { text := "t", is_unchanged := false, language := "de",
    unicode_analyzer := {}, wikidata_id := "Q42", conll_type := some "PER",
    anomalous := some false, noise_sample := some true,
    english_text := some "e", analyze_unicode := false,
    alignment := some { alignment_str := "0-0" },
    _original_text := some "o" }

/-- Two name records that differ only in `wikidata_id`. -/
def nameQ1 : TransliteratedName :=
  { text := "X", is_unchanged := true, language := "yy",
    unicode_analyzer := {}, wikidata_id := "Q1" }

/-- See `nameQ1`. -/
def nameQ2 : TransliteratedName :=
  { text := "X", is_unchanged := true, language := "yy",
    unicode_analyzer := {}, wikidata_id := "Q2" }

/-- The record of the spec's end-to-end permuter example: a 2-token name
`"Tanaka Yuki"` with English reference `"Yuki Tanaka"`. -/
def tanakaYuki : TransliteratedName :=
  { text := "Tanaka Yuki", is_unchanged := true, language := "ja",
    unicode_analyzer := {}, english_text := some "Yuki Tanaka" }

/-- A 2-token name whose first token starts with a comma, so the winning
permutation and the text the permuter stores differ. -/
def commaName : TransliteratedName :=
  { text := ",x y", is_unchanged := true, language := "xx",
    unicode_analyzer := {}, english_text := some ",x y" }

/-- Claim-side reading of the CrossingCounter (stated from the spec's words,
to be compared with `compute_cross_alignments`): sort the links by source
index ascending; link `i` of the sorted sequence is counted iff its target
index is strictly below `max_target_seen` at the moment it is visited,
where `max_target_seen` starts at `0` and is the running maximum of the
targets already visited. -/
def crossing_count_spec (links : List (Nat × Nat)) : Nat :=
  let sorted := insSort (fun a b => a.1 ≤ b.1) links
  (List.range sorted.length).countP
    (fun i => decide ((sorted.getD i (0, 0)).2 <
      ((sorted.take i).map Prod.snd).foldl max 0))

/-- The edit distance a candidate pair contributes: the romanized
permutation (second component) against the English reference. -/
def ed_of (english_text : String) (p : String × String) : Nat :=
  editdistance_eval p.2 english_text

/-- The `best_distance` comparison with `np.inf` as `none`: is `d` strictly
below the best distance seen so far? -/
def distLtB (d : Nat) : Option Nat → Bool
  | none => true
  | some b => decide (d < b)

/-! ## Theorems -/

theorem sum_map_vote_int (vs : List (Option Bool)) :
    (vs.map vote_int).sum =
      (vs.count (some true) : Int) - (vs.count (some false) : Int) := by
  induction vs with
  | nil => simp
  | cons a vs ih =>
    rcases a with _ | b
    · simp [vote_int, ih, List.count_cons]
    · cases b <;> simp [vote_int, ih, List.count_cons] <;> omega

/-- C6: `majority_vote` (the row-mean comparison of
`test_flyingsquid.py`) labels a name anomalous iff the anomalous votes
strictly outnumber the not-anomalous ones among the non-abstaining votes
(abstentions contribute `0` to the sum, and an exact tie yields
not-anomalous); in particular `[anomalous, anomalous, not-anomalous]`
aggregates to anomalous. -/
theorem c6_majority_vote :
    (∀ votes : List (Option Bool),
      majority_vote_preds votes = true ↔
        votes.count (some false) < votes.count (some true)) ∧
    majority_vote_preds [some true, some true, some false] = true := by
  constructor
  · intro votes
    unfold majority_vote_preds
    rw [sum_map_vote_int]
    simp only [decide_eq_true_eq]
    omega
  · decide

theorem unicode_blocks_eq_nil (a : UnicodeAnalyzer) (ud : UnicodeData) (word : String)
    (h : ∀ c ∈ (a.maybe_strip word).data, a.qualifies ud c = false) :
    a.unicode_blocks ud word = [] := by
  unfold UnicodeAnalyzer.unicode_blocks
  have : ((a.maybe_strip word).data.filterMap
      (fun c => if a.qualifies ud c then ud.blockOf c else none)) = [] := by
    rw [List.filterMap_eq_nil_iff]
    intro c hc
    rw [h c hc]
    simp
  rw [this]
  rfl

/-- C7: when every character of the (optionally stripped) input fails the
configured filters — e.g. a digits-and-punctuation string under
`ignore_numbers=True, ignore_punctuation=True` — the histogram is the empty
map (the normalizing division loop never runs, so there is no division by
the zero total) and `most_common_unicode_block` returns `""`. -/
theorem c7_empty_histogram (a : UnicodeAnalyzer) (ud : UnicodeData) (word : String)
    (h : ∀ c ∈ (a.maybe_strip word).data, a.qualifies ud c = false) :
    a.unicode_block_histogram ud word = [] ∧
      a.most_common_unicode_block ud word = "" := by
  have hb := unicode_blocks_eq_nil a ud word h
  constructor
  · unfold UnicodeAnalyzer.unicode_block_histogram
    rw [hb]
    simp
  · unfold UnicodeAnalyzer.most_common_unicode_block
    rw [hb]
    rfl

theorem c7_empty_histogram_witness :
    filteringAnalyzer.unicode_block_histogram miniUnicodeData "42.7" = [] ∧
      filteringAnalyzer.most_common_unicode_block miniUnicodeData "42.7" = "" :=
  c7_empty_histogram filteringAnalyzer miniUnicodeData "42.7" (by decide)

/-- C9 counterexample: two records agreeing on `text` and `language` but
differing in `wikidata_id` are not equal under the attrs-generated
`__eq__`, so equality of `TransliteratedName` is not determined by
`(text, language)` alone. -/
theorem c9_counterexample :
    nameQ1.text = nameQ2.text ∧ nameQ1.language = nameQ2.language ∧
      attrs_eq nameQ1 nameQ2 = false := by decide

/-- C9 (amended): the attrs-generated equality of `TransliteratedName`
records holds iff all twelve declared fields agree — full structural
equality, not `(text, language)` projection (the hand-written
`(text, language)`-based `__hash__` is dead code, overridden by the
attrs-generated hash). -/
theorem c9_attrs_equality (a b : TransliteratedName) :
    attrs_eq a b = true ↔ a = b := by
  cases a
  cases b
  simp only [attrs_eq, Bool.and_eq_true, beq_iff_eq, TransliteratedName.mk.injEq]
  tauto

/-- C10: each record returned by `AnomalousTagger.__call__` keeps only
`text`, `language`, `is_unchanged`, `unicode_analyzer` and the fresh
classification; `wikidata_id`, `conll_type`, `english_text`,
`noise_sample`, `alignment` and the stored original text are reset to the
constructor defaults `"Q0"`, `"NONE"`, `None`, `False`, `None`, `None`. -/
theorem c10_tagger_resets_fields (classify : TransliteratedName → Option Bool)
    (names : List TransliteratedName) (i : Nat) (h : i < names.length) :
    ∃ h2 : i < (anomalous_tagger_call classify names).length,
      (anomalous_tagger_call classify names).get ⟨i, h2⟩ =
        { text := (names.get ⟨i, h⟩).text,
          is_unchanged := (names.get ⟨i, h⟩).is_unchanged,
          language := (names.get ⟨i, h⟩).language,
          unicode_analyzer := (names.get ⟨i, h⟩).unicode_analyzer,
          wikidata_id := "Q0",
          conll_type := some "NONE",
          anomalous := classify (names.get ⟨i, h⟩),
          noise_sample := some false,
          english_text := none,
          analyze_unicode := true,
          alignment := none,
          _original_text := none } := by
  refine ⟨by simpa [anomalous_tagger_call] using h, ?_⟩
  simp [anomalous_tagger_call, List.get_eq_getElem, List.getElem_map]

theorem c10_tagger_resets_fields_witness :
    ∃ h2 : 0 < (anomalous_tagger_call (fun _ => some true) [richName]).length,
      (anomalous_tagger_call (fun _ => some true) [richName]).get ⟨0, h2⟩ =
        { text := "t", is_unchanged := false, language := "de",
          unicode_analyzer := {}, wikidata_id := "Q0",
          conll_type := some "NONE", anomalous := some true,
          noise_sample := some false, english_text := none,
          analyze_unicode := true, alignment := none,
          _original_text := none } :=
  c10_tagger_resets_fields (fun _ => some true) [richName] 0 (by decide)

/-- C3 counterexample: a 1-token name that reaches the permuter with
`is_unchanged = False` is passed through with the flag still `False`, so
the permuter does not make `is_unchanged` true for out-of-range names. -/
theorem c3_counterexample :
    (py_split_ws oneTokenName.text).length = 1 ∧
      (permute_lowest_one oneTokenName "Single").is_unchanged = false := by
  decide

/-- C3 (amended): a name whose whitespace-token count is outside `[2, 4]`
is returned by both `PermuteLowestDistance` call modes as the very input
record — its `text` is unchanged and its `is_unchanged` flag keeps its
input value (it is not forced to `True`). -/
theorem c3_out_of_range_passthrough (name : TransliteratedName) (romanized : String)
    (h : ¬ (2 ≤ (py_split_ws name.text).length ∧
             (py_split_ws name.text).length ≤ 4)) :
    permute_lowest_one name romanized = name ∧
      permute_lowest_one_inplace name romanized = name := by
  constructor
  · unfold permute_lowest_one
    exact if_neg h
  · unfold permute_lowest_one_inplace
    exact if_neg h

theorem c3_out_of_range_passthrough_witness :
    permute_lowest_one oneTokenName "A" = oneTokenName ∧
      permute_lowest_one_inplace oneTokenName "A" = oneTokenName :=
  c3_out_of_range_passthrough oneTokenName "A" (by decide)

/-- C4 counterexample: a tool output/input line-count mismatch is not
always fatal.  With two inputs and a single (newline-terminated) stdout
line the zip realigns silently — the second "romanization" becomes the
empty string — and with one input and three stdout lines the extra lines
are silently truncated; both calls return `ok`. -/
theorem c4_counterexample :
    uroman_call ["a", "b"] (some "x\n") = .ok ["x", ""] ∧
      uroman_call ["a"] (some "x\ny\nz") = .ok ["x"] :=
  ⟨rfl, rfl⟩

/-- C4 (amended): the Romanizer adapter fails with `ToolUnavailable` when
the binary is missing, and any list it returns normally has exactly the
length of the input list; but a count mismatch from the external tool is
fatal only when the newline-split stdout has fewer fields than there are
inputs — extra lines are silently dropped and a one-line shortfall is
silently padded by `""` through the zip. -/
theorem c4_uroman_contract (strings : List String) (stdout? : Option String) :
    (stdout? = none → uroman_call strings stdout? = .error .toolUnavailable) ∧
    (∀ out, uroman_call strings stdout? = .ok out → out.length = strings.length) := by
  constructor
  · intro h
    subst h
    rfl
  · intro out h
    cases stdout? with
    | none => exact absurd h (by simp [uroman_call])
    | some s =>
      simp only [uroman_call] at h
      split at h
      next hlen => cases h; exact hlen
      next => cases h

theorem c4_uroman_contract_witness :
    uroman_call ["a"] none = .error .toolUnavailable ∧
      (["x"] : List String).length = (["a"] : List String).length :=
  ⟨(c4_uroman_contract ["a"] none).1 rfl,
   (c4_uroman_contract ["a"] (some "x")).2 ["x"] rfl⟩

/-- C5: whenever a batch call of the aligner adapter returns normally, the
number of `Alignment`s produced equals the number of input names (the
`assert len(alignments) == len(names)` guards the mismatch), and the
returned name list is exactly the input list with the `i`-th alignment
attached to the `i`-th name. -/
theorem c5_aligner_contract (names : List TransliteratedName) (stdout? : Option String)
    (als : List Alignment) (linked : List TransliteratedName)
    (h : fast_aligner_call names stdout? = .ok (als, linked)) :
    als.length = names.length ∧
    linked = (names.zip als).map (fun p => { p.1 with alignment := some p.2 }) ∧
    ∀ i (hl : i < linked.length) (ha : i < als.length) (hn : i < names.length),
      linked.get ⟨i, hl⟩ =
        { names.get ⟨i, hn⟩ with alignment := some (als.get ⟨i, ha⟩) } := by
  cases stdout? with
  | none =>
    simp only [fast_aligner_call] at h
    split at h
    · cases h
    · cases h
  | some out =>
    simp only [fast_aligner_call] at h
    split at h
    · cases h
    · split at h
      · cases h
      · split at h
        next hlen =>
          injection h with hpair
          injection hpair with h1 h2
          subst h1
          subst h2
          refine ⟨hlen, rfl, ?_⟩
          intro i hl ha hn
          simp [List.get_eq_getElem, List.getElem_map, List.getElem_zip]
        next => cases h

theorem c5_aligner_contract_witness :
    ([⟨"0-0", 0⟩] : List Alignment).length = [alignableName].length ∧
    [{ alignableName with alignment := some ⟨"0-0", 0⟩ }] =
      ([alignableName].zip ([⟨"0-0", 0⟩] : List Alignment)).map
        (fun p => { p.1 with alignment := some p.2 }) ∧
    ∀ i (hl : i < ([{ alignableName with alignment := some ⟨"0-0", 0⟩ }] :
          List TransliteratedName).length)
      (ha : i < ([⟨"0-0", 0⟩] : List Alignment).length)
      (hn : i < [alignableName].length),
      ([{ alignableName with alignment := some ⟨"0-0", 0⟩ }] :
          List TransliteratedName).get ⟨i, hl⟩ =
        { [alignableName].get ⟨i, hn⟩ with
          alignment := some (([⟨"0-0", 0⟩] : List Alignment).get ⟨i, ha⟩) } :=
  c5_aligner_contract [alignableName] (some "0-0\n") [⟨"0-0", 0⟩]
    [{ alignableName with alignment := some ⟨"0-0", 0⟩ }] rfl

theorem insertS_map (f : α → β) (leA : α → α → Bool) (leB : β → β → Bool)
    (hle : ∀ a b, leB (f a) (f b) = leA a b) (x : α) (l : List α) :
    insertS leB (f x) (l.map f) = (insertS leA x l).map f := by
  induction l with
  | nil => rfl
  | cons y ys ih =>
    simp only [List.map_cons, insertS, hle x y]
    by_cases h : leA x y = true
    · rw [if_pos h, if_pos h]
      simp
    · rw [if_neg h, if_neg h]
      simp [ih]

theorem insSort_map (f : α → β) (leA : α → α → Bool) (leB : β → β → Bool)
    (hle : ∀ a b, leB (f a) (f b) = leA a b) (l : List α) :
    insSort leB (l.map f) = (insSort leA l).map f := by
  induction l with
  | nil => rfl
  | cons y ys ih =>
    simp only [List.map_cons, insSort, ih]
    exact insertS_map f leA leB hle y (insSort leA ys)

theorem crossScan_eq_countP (l : List (Nat × Nat)) (c m : Nat) :
    (l.foldl (fun st p => crossStep st [p.1, p.2]) (c, m)).1 =
      c + (List.range l.length).countP
        (fun i => decide ((l.getD i (0, 0)).2 <
          ((l.take i).map Prod.snd).foldl max m)) := by
  induction l generalizing c m with
  | nil => simp
  | cons p rest ih =>
    rw [List.foldl_cons]
    have hstep : crossStep (c, m) [p.1, p.2] =
        ((if p.2 < m then c + 1 else c), max m p.2) := rfl
    rw [hstep, ih]
    have hsucc : (List.range rest.length).countP
        (fun i => decide (((p :: rest).getD (i + 1) (0, 0)).2 <
          (((p :: rest).take (i + 1)).map Prod.snd).foldl max m)) =
      (List.range rest.length).countP
        (fun i => decide ((rest.getD i (0, 0)).2 <
          ((rest.take i).map Prod.snd).foldl max (max m p.2))) := by
      apply List.countP_congr
      intro i _
      simp [List.take_succ_cons, List.getD_cons_succ, List.foldl_cons]
    rw [List.length_cons, List.range_succ_eq_map, List.countP_cons, List.countP_map]
    have hcomp : ((fun i => decide (((p :: rest).getD i (0, 0)).2 <
        (((p :: rest).take i).map Prod.snd).foldl max m)) ∘ Nat.succ) =
      (fun i => decide (((p :: rest).getD (i + 1) (0, 0)).2 <
        (((p :: rest).take (i + 1)).map Prod.snd).foldl max m)) := rfl
    rw [hcomp, hsucc]
    simp only [List.getD_cons_zero, List.take_zero, List.map_nil, List.foldl_nil]
    by_cases hp : p.2 < m
    · simp [hp]
      omega
    · simp [hp]

/-- C2: `Alignment.compute_cross_alignments` on a list of alignment links
(each link `(source, target)` parsed as the 2-tuple `[source, target]`)
equals the count described by the spec: after sorting the links by source
index ascending, a link is counted iff its target index is strictly below
the running maximum of the targets already visited (`max_target_seen`,
starting at `0`); in particular `[(0,0),(1,1),(2,2)]`, `[(0,1),(1,0)]` and
`[(0,2),(1,0),(2,1)]` count `0`, `1` and `2` crossings. -/
theorem c2_crossing_counter :
    (∀ links : List (Nat × Nat),
      compute_cross_alignments (links.map (fun p => [p.1, p.2])) =
        crossing_count_spec links) ∧
    compute_cross_alignments
      ([((0:Nat), (0:Nat)), (1, 1), (2, 2)].map (fun p => [p.1, p.2])) = 0 ∧
    compute_cross_alignments
      ([((0:Nat), (1:Nat)), (1, 0)].map (fun p => [p.1, p.2])) = 1 ∧
    compute_cross_alignments
      ([((0:Nat), (2:Nat)), (1, 0), (2, 1)].map (fun p => [p.1, p.2])) = 2 := by
  refine ⟨?_, by decide, by decide, by decide⟩
  intro links
  unfold compute_cross_alignments crossing_count_spec
  rw [insSort_map (fun p : Nat × Nat => [p.1, p.2]) (fun a b => decide (a.1 ≤ b.1))
    alignKeyLe (fun a b => rfl) links]
  rw [List.foldl_map]
  rw [crossScan_eq_countP]
  simp

theorem hasMatch_cons (c : Char) (rest : List Char) :
    hasMatch (c :: rest) =
      if c = '(' ∧ ')' ∈ rest.takeWhile (fun x => x ≠ '\n') then true
      else hasMatch rest := rfl

theorem lineCloseSplit_some_length {rest after : List Char}
    (h : lineCloseSplit rest = some after) : after.length ≤ rest.length := by
  unfold lineCloseSplit at h
  cases h' : lastIdx? (fun c => c == ')') (rest.takeWhile (fun c => c ≠ '\n')) with
  | none => rw [h'] at h; exact absurd h (by simp)
  | some j =>
    rw [h'] at h
    simp only [Option.some.injEq] at h
    subst h
    simp only [List.length_drop]
    omega

theorem exists_of_findIdx?_eq_some {q : α → Bool} :
    ∀ {l : List α} {i k : Nat}, List.findIdx? q l i = some k →
      ∃ x ∈ l, q x = true := by
  intro l
  induction l with
  | nil =>
    intro i k h
    cases h
  | cons a l ih =>
    intro i k h
    rw [List.findIdx?_cons] at h
    by_cases hq : q a = true
    · exact ⟨a, List.mem_cons_self a l, hq⟩
    · rw [if_neg hq] at h
      rcases ih h with ⟨x, hx, hqx⟩
      exact ⟨x, List.mem_cons.mpr (Or.inr hx), hqx⟩

theorem lineCloseSplit_none_of_not_mem {rest : List Char}
    (h : ')' ∉ rest.takeWhile (fun c => c ≠ '\n')) :
    lineCloseSplit rest = none := by
  have hf : (rest.takeWhile (fun c => c ≠ '\n')).reverse.findIdx?
      (fun c => c == ')') = none := by
    apply List.findIdx?_eq_none_iff.mpr
    intro x hx
    cases hxq : (x == ')') with
    | false => rfl
    | true =>
      exact absurd ((beq_iff_eq.mp hxq) ▸ List.mem_reverse.mp hx) h
  unfold lineCloseSplit lastIdx?
  rw [hf]

theorem not_mem_of_lineCloseSplit_none {rest : List Char}
    (h : lineCloseSplit rest = none) :
    ')' ∉ rest.takeWhile (fun c => c ≠ '\n') := by
  intro hmem
  unfold lineCloseSplit lastIdx? at h
  cases hf : (rest.takeWhile (fun c => c ≠ '\n')).reverse.findIdx?
      (fun c => c == ')') with
  | none =>
    have h2 := List.findIdx?_eq_none_iff.mp hf ')' (List.mem_reverse.mpr hmem)
    simp at h2
  | some k =>
    rw [hf] at h
    simp at h

theorem reSubAux_nil (n : Nat) : reSubAux n [] = [] := by
  cases n <;> rfl

theorem reSubAux_cons (n : Nat) (c : Char) (rest : List Char) :
    reSubAux (n + 1) (c :: rest) =
      if c = '(' ∧ (lineCloseSplit rest).isSome then
        reSubAux n ((lineCloseSplit rest).getD [])
      else
        c :: reSubAux n rest := rfl

theorem reSubAux_fuel : ∀ (n m : Nat) (l : List Char),
    l.length ≤ n → l.length ≤ m → reSubAux n l = reSubAux m l := by
  intro n
  induction n with
  | zero =>
    intro m l h1 _
    have : l = [] := List.length_eq_zero.mp (Nat.le_zero.mp h1)
    subst this
    rw [reSubAux_nil, reSubAux_nil]
  | succ n ih =>
    intro m l h1 h2
    cases l with
    | nil => rw [reSubAux_nil, reSubAux_nil]
    | cons c rest =>
      cases m with
      | zero => simp at h2
      | succ m' =>
        rw [List.length_cons] at h1 h2
        rw [reSubAux_cons, reSubAux_cons]
        by_cases hcond : c = '(' ∧ (lineCloseSplit rest).isSome
        · rw [if_pos hcond, if_pos hcond]
          cases hcl : lineCloseSplit rest with
          | none => rw [hcl] at hcond; simp at hcond
          | some after =>
            simp only [Option.getD_some]
            have hle := lineCloseSplit_some_length hcl
            exact ih m' after (by omega) (by omega)
        · rw [if_neg hcond, if_neg hcond]
          rw [ih m' rest (by omega) (by omega)]

theorem reSub_nil : reSub [] = [] := rfl

theorem reSub_cons_close {c : Char} {rest after : List Char} (hc : c = '(')
    (h : lineCloseSplit rest = some after) : reSub (c :: rest) = reSub after := by
  unfold reSub
  rw [List.length_cons, reSubAux_cons]
  rw [if_pos ⟨hc, by rw [h]; rfl⟩]
  rw [h]
  simp only [Option.getD_some]
  exact reSubAux_fuel rest.length after.length after
    (lineCloseSplit_some_length h) le_rfl

theorem reSub_cons_none {c : Char} {rest : List Char} (_hc : c = '(')
    (h : lineCloseSplit rest = none) : reSub (c :: rest) = c :: reSub rest := by
  unfold reSub
  rw [List.length_cons, reSubAux_cons]
  rw [if_neg (fun hand => by rw [h] at hand; exact absurd hand.2 (by simp))]

theorem reSub_cons_other {c : Char} {rest : List Char} (hc : ¬ c = '(') :
    reSub (c :: rest) = c :: reSub rest := by
  unfold reSub
  rw [List.length_cons, reSubAux_cons]
  rw [if_neg (fun hand => hc hand.1)]

theorem mem_takeWhile_append {q : Char → Bool} {c : Char} {l r : List Char}
    (h : c ∈ l.takeWhile q) : c ∈ (l ++ r).takeWhile q := by
  induction l with
  | nil => simp [List.takeWhile] at h
  | cons a l' ih =>
    rw [List.cons_append, List.takeWhile_cons] at *
    by_cases hq : q a = true
    · rw [if_pos hq] at h ⊢
      rcases List.mem_cons.mp h with h1 | h1
      · exact List.mem_cons.mpr (Or.inl h1)
      · exact List.mem_cons.mpr (Or.inr (ih h1))
    · rw [if_neg hq] at h
      simp at h

theorem reSub_no_close {s : List Char}
    (h : ')' ∉ s.takeWhile (fun c => c ≠ '\n')) :
    ')' ∉ (reSub s).takeWhile (fun c => c ≠ '\n') := by
  induction s with
  | nil =>
    intro hmem
    rw [reSub_nil] at hmem
    simp at hmem
  | cons c rest ih =>
    by_cases hnl : c = '\n'
    · subst hnl
      rw [reSub_cons_other (by decide)]
      rw [List.takeWhile_cons]
      simp
    · rw [List.takeWhile_cons, if_pos (by simp [hnl])] at h
      have hc : c ≠ ')' := fun he => h (he ▸ List.mem_cons_self _ _)
      have hrest : ')' ∉ rest.takeWhile (fun x => x ≠ '\n') :=
        fun hm => h (List.mem_cons.mpr (Or.inr hm))
      by_cases hpar : c = '('
      · rw [reSub_cons_none hpar (lineCloseSplit_none_of_not_mem hrest)]
        rw [List.takeWhile_cons, if_pos (by simp [hnl])]
        intro hm
        rcases List.mem_cons.mp hm with h1 | h1
        · exact hc h1.symm
        · exact ih hrest h1
      · rw [reSub_cons_other hpar]
        rw [List.takeWhile_cons, if_pos (by simp [hnl])]
        intro hm
        rcases List.mem_cons.mp hm with h1 | h1
        · exact hc h1.symm
        · exact ih hrest h1

theorem hasMatch_reSub_aux : ∀ (n : Nat) (s : List Char), s.length ≤ n →
    hasMatch (reSub s) = false := by
  intro n
  induction n with
  | zero =>
    intro s hs
    have : s = [] := List.length_eq_zero.mp (Nat.le_zero.mp hs)
    subst this
    rw [reSub_nil]
    rfl
  | succ n ih =>
    intro s hs
    cases s with
    | nil =>
      rw [reSub_nil]
      rfl
    | cons c rest =>
      rw [List.length_cons] at hs
      by_cases hpar : c = '('
      · cases hcl : lineCloseSplit rest with
        | some after =>
          rw [reSub_cons_close hpar hcl]
          exact ih after (le_trans (lineCloseSplit_some_length hcl) (by omega))
        | none =>
          rw [reSub_cons_none hpar hcl]
          rw [hasMatch_cons]
          rw [if_neg]
          · exact ih rest (by omega)
          · intro hand
            exact reSub_no_close (not_mem_of_lineCloseSplit_none hcl) hand.2
      · rw [reSub_cons_other hpar]
        rw [hasMatch_cons]
        rw [if_neg (fun hand => hpar hand.1)]
        exact ih rest (by omega)

theorem hasMatch_reSub (s : List Char) : hasMatch (reSub s) = false :=
  hasMatch_reSub_aux s.length s le_rfl

theorem reSub_of_no_match {s : List Char} (h : hasMatch s = false) :
    reSub s = s := by
  induction s with
  | nil => rfl
  | cons c rest ih =>
    rw [hasMatch_cons] at h
    by_cases hcond : c = '(' ∧ ')' ∈ rest.takeWhile (fun x => x ≠ '\n')
    · rw [if_pos hcond] at h
      cases h
    · rw [if_neg hcond] at h
      by_cases hpar : c = '('
      · have hnc : ')' ∉ rest.takeWhile (fun x => x ≠ '\n') :=
          fun hm => hcond ⟨hpar, hm⟩
        rw [reSub_cons_none hpar (lineCloseSplit_none_of_not_mem hnc)]
        rw [ih h]
      · rw [reSub_cons_other hpar, ih h]

theorem hasMatch_append_right {l r : List Char}
    (h : hasMatch (l ++ r) = false) : hasMatch r = false := by
  induction l with
  | nil => exact h
  | cons c l' ih =>
    rw [List.cons_append, hasMatch_cons] at h
    by_cases hcond : c = '(' ∧ ')' ∈ (l' ++ r).takeWhile (fun x => x ≠ '\n')
    · rw [if_pos hcond] at h
      cases h
    · rw [if_neg hcond] at h
      exact ih h

theorem hasMatch_append_left {l r : List Char}
    (h : hasMatch (l ++ r) = false) : hasMatch l = false := by
  induction l with
  | nil => rfl
  | cons c l' ih =>
    rw [List.cons_append, hasMatch_cons] at h
    rw [hasMatch_cons]
    by_cases hcond : c = '(' ∧ ')' ∈ (l' ++ r).takeWhile (fun x => x ≠ '\n')
    · rw [if_pos hcond] at h
      cases h
    · rw [if_neg hcond] at h
      rw [if_neg (fun hand => hcond ⟨hand.1, mem_takeWhile_append hand.2⟩)]
      exact ih h

theorem head?_dropWhile_false (p : Char → Bool) (l : List Char) :
    ∀ c, (l.dropWhile p).head? = some c → p c = false := by
  induction l with
  | nil => intro c hc; cases hc
  | cons a l' ih =>
    intro c hc
    rw [List.dropWhile_cons] at hc
    by_cases hp : p a = true
    · rw [if_pos hp] at hc
      exact ih c hc
    · rw [if_neg hp] at hc
      injection hc with hc'
      subst hc'
      exact Bool.eq_false_iff.mpr hp

theorem dropWhile_eq_self_of_head (p : Char → Bool) (l : List Char)
    (h : ∀ c, l.head? = some c → p c = false) : l.dropWhile p = l := by
  cases l with
  | nil => rfl
  | cons a l' =>
    rw [List.dropWhile_cons, if_neg]
    rw [h a rfl]
    simp

theorem stripList_eq (p : Char → Bool) (l : List Char) :
    stripList p l = ((l.dropWhile p).reverse.dropWhile p).reverse := rfl

theorem stripList_idem (p : Char → Bool) (l : List Char) :
    stripList p (stripList p l) = stripList p l := by
  have hhead : ∀ c, (stripList p l).head? = some c → p c = false := by
    intro c hc
    have h1 : ((l.dropWhile p).reverse.dropWhile p).getLast? = some c := by
      rw [List.getLast?_eq_head?_reverse, ← stripList_eq]
      exact hc
    have h2 : (l.dropWhile p).reverse.getLast? = some c := by
      conv_lhs => rw [← List.takeWhile_append_dropWhile p (l.dropWhile p).reverse]
      rw [List.getLast?_append, h1]
      rfl
    have h3 : (l.dropWhile p).head? = some c := by
      rw [← List.getLast?_reverse]
      exact h2
    exact head?_dropWhile_false p l c h3
  rw [stripList_eq p (stripList p l)]
  rw [dropWhile_eq_self_of_head p (stripList p l) hhead]
  rw [stripList_eq p l, List.reverse_reverse]
  rw [dropWhile_eq_self_of_head p ((l.dropWhile p).reverse.dropWhile p)
    (head?_dropWhile_false p (l.dropWhile p).reverse)]

theorem hasMatch_stripList {p : Char → Bool} {l : List Char}
    (h : hasMatch l = false) : hasMatch (stripList p l) = false := by
  unfold stripList revDrop
  have h1 : hasMatch (l.dropWhile p) = false := by
    apply hasMatch_append_right (l := l.takeWhile p)
    rw [List.takeWhile_append_dropWhile]
    exact h
  apply hasMatch_append_left
    (r := ((l.dropWhile p).reverse.takeWhile p).reverse)
  have hdecomp : l.dropWhile p =
      ((l.dropWhile p).reverse.dropWhile p).reverse ++
        ((l.dropWhile p).reverse.takeWhile p).reverse := by
    conv_lhs => rw [← List.reverse_reverse (l.dropWhile p)]
    conv_lhs =>
      rw [← List.takeWhile_append_dropWhile p (l.dropWhile p).reverse]
    rw [List.reverse_append]
  rw [← hdecomp]
  exact h1

/-- C8: `ParenthesisRemover.process` (remove the greedy parenthesis spans,
then strip surrounding whitespace) is idempotent: applying it twice yields
the same string as applying it once.  After one pass no line of the result
has a `'('` followed by a `')'`, so the second regex substitution is the
identity, and stripping a stripped string changes nothing. -/
theorem c8_parenthesis_remover_idem (s : String) :
    ParenthesisRemover.process (ParenthesisRemover.process s) =
      ParenthesisRemover.process s := by
  have h1 : hasMatch (reSub s.data) = false := hasMatch_reSub s.data
  have h2 : hasMatch (stripList pyIsSpace (reSub s.data)) = false :=
    hasMatch_stripList h1
  have key : stripList pyIsSpace
      (reSub (stripList pyIsSpace (reSub s.data))) =
      stripList pyIsSpace (reSub s.data) := by
    rw [reSub_of_no_match h2]
    exact stripList_idem pyIsSpace (reSub s.data)
  exact String.ext key

theorem ed_step_eq (eng : String) (b? : Option Nat) (nm : String)
    (p : String × String) :
    ed_step eng (b?, nm) p =
      if distLtB (ed_of eng p) b? then
        (some (ed_of eng p), py_strip_cs p.1)
      else (b?, nm) := by
  cases b? with
  | none => rfl
  | some b =>
    simp only [ed_step, ed_of, distLtB]
    by_cases hlt : editdistance_eval p.2 eng < b
    · rw [if_pos hlt, if_pos (by simpa using hlt)]
    · rw [if_neg hlt, if_neg (by simpa using hlt)]

theorem ed_foldl_spec (eng : String) :
    ∀ (pairs : List (String × String)) (b? : Option Nat) (nm : String),
      (pairs.foldl (ed_step eng) (b?, nm) = (b?, nm) ∧
        ∀ p ∈ pairs, distLtB (ed_of eng p) b? = false) ∨
      (∃ i, ∃ _hi : i < pairs.length,
        (pairs.foldl (ed_step eng) (b?, nm)).1 =
          some (ed_of eng (pairs.getD i ("", ""))) ∧
        (pairs.foldl (ed_step eng) (b?, nm)).2 =
          py_strip_cs (pairs.getD i ("", "")).1 ∧
        distLtB (ed_of eng (pairs.getD i ("", ""))) b? = true ∧
        (∀ p ∈ pairs, ed_of eng (pairs.getD i ("", "")) ≤ ed_of eng p) ∧
        (∀ j, j < i → ed_of eng (pairs.getD i ("", "")) <
          ed_of eng (pairs.getD j ("", "")))) := by
  intro pairs
  induction pairs with
  | nil =>
    intro b? nm
    left
    exact ⟨rfl, by simp⟩
  | cons p rest ih =>
    intro b? nm
    rw [List.foldl_cons, ed_step_eq]
    by_cases hB : distLtB (ed_of eng p) b? = true
    · rw [if_pos hB]
      rcases ih (some (ed_of eng p)) (py_strip_cs p.1) with
        ⟨hr, hall⟩ | ⟨i, hi, h1, h2, h3, hmin, hfirst⟩
      · right
        refine ⟨0, by simp, ?_, ?_, ?_, ?_, ?_⟩
        · rw [hr]
          simp [List.getD_cons_zero]
        · rw [hr]
          simp [List.getD_cons_zero]
        · simpa [List.getD_cons_zero] using hB
        · intro q hq
          simp only [List.getD_cons_zero]
          rcases List.mem_cons.mp hq with h | h
          · subst h
            exact le_rfl
          · have := hall q h
            simp only [distLtB, decide_eq_false_iff_not] at this
            omega
        · intro j hj
          omega
      · right
        refine ⟨i + 1, Nat.succ_lt_succ hi, ?_, ?_, ?_, ?_, ?_⟩
        · simpa [List.getD_cons_succ] using h1
        · simpa [List.getD_cons_succ] using h2
        · simp only [List.getD_cons_succ]
          cases b? with
          | none => rfl
          | some b =>
            simp only [distLtB, decide_eq_true_eq] at h3 hB ⊢
            omega
        · intro q hq
          simp only [List.getD_cons_succ]
          rcases List.mem_cons.mp hq with h | h
          · subst h
            simp only [distLtB, decide_eq_true_eq] at h3
            omega
          · exact hmin q h
        · intro j hj
          cases j with
          | zero =>
            simp only [List.getD_cons_succ, List.getD_cons_zero]
            simp only [distLtB, decide_eq_true_eq] at h3
            omega
          | succ j' =>
            simp only [List.getD_cons_succ]
            exact hfirst j' (by omega)
    · rw [if_neg hB]
      rcases ih b? nm with ⟨hr, hall⟩ | ⟨i, hi, h1, h2, h3, hmin, hfirst⟩
      · left
        refine ⟨hr, ?_⟩
        intro q hq
        rcases List.mem_cons.mp hq with h | h
        · subst h
          simpa using hB
        · exact hall q h
      · right
        refine ⟨i + 1, Nat.succ_lt_succ hi, ?_, ?_, ?_, ?_, ?_⟩
        · simpa [List.getD_cons_succ] using h1
        · simpa [List.getD_cons_succ] using h2
        · simpa [List.getD_cons_succ] using h3
        · intro q hq
          simp only [List.getD_cons_succ]
          rcases List.mem_cons.mp hq with h | h
          · subst h
            cases b? with
            | none => simp [distLtB] at hB
            | some b =>
              simp only [distLtB, decide_eq_true_eq] at h3 hB
              omega
          · exact hmin q h
        · intro j hj
          cases j with
          | zero =>
            simp only [List.getD_cons_succ, List.getD_cons_zero]
            cases b? with
            | none => simp [distLtB] at hB
            | some b =>
              simp only [distLtB, decide_eq_true_eq] at h3 hB
              omega
          | succ j' =>
            simp only [List.getD_cons_succ]
            exact hfirst j' (by omega)

theorem pyPermsAux_ne_nil : ∀ (n : Nat) (l : List α), pyPermsAux n l ≠ [] := by
  intro n
  induction n with
  | zero =>
    intro l
    simp [pyPermsAux]
  | succ n ih =>
    intro l
    cases l with
    | nil => simp [pyPermsAux]
    | cons x xs =>
      intro h
      simp only [pyPermsAux, picks, List.flatMap_cons] at h
      have h2 := (List.append_eq_nil.mp h).1
      rw [List.map_eq_nil_iff] at h2
      exact ih xs h2

theorem ed_candidates_length_pos (text romanized : String) :
    0 < (ed_candidates text romanized).length := by
  unfold ed_candidates permuted_of
  rw [List.length_zip, List.length_map, List.length_map]
  have h1 := List.length_pos.mpr (pyPermsAux_ne_nil (py_split_ws text).length
    (py_split_ws text))
  have h2 := List.length_pos.mpr (pyPermsAux_ne_nil (py_split_ws romanized).length
    (py_split_ws romanized))
  unfold pyPermutations
  omega

/-- C1 (amended): for every name with 2-4 whitespace tokens and an English
reference, `PermuteLowestDistance._call_immutable` stores as the new text
the first token permutation (in `itertools.permutations` enumeration order)
whose positionally paired romanized permutation attains the minimum
character-level edit distance to the English reference — with its
leading/trailing commas and whitespace stripped (`strip(",").strip()`), so
the stored text equals that winning permutation itself whenever the
permutation carries no edge commas; in particular the 2-token name
`"Tanaka Yuki"` with romanization `"Tanaka Yuki"` and reference
`"Yuki Tanaka"` becomes `"Yuki Tanaka"`. -/
theorem c1_lowest_distance_argmin :
    (∀ (name : TransliteratedName) (romanized eng : String),
      name.english_text = some eng →
      2 ≤ (py_split_ws name.text).length →
      (py_split_ws name.text).length ≤ 4 →
      ∃ i, ∃ _hi : i < (ed_candidates name.text romanized).length,
        (permute_lowest_one name romanized).text =
          py_strip_cs ((ed_candidates name.text romanized).getD i ("", "")).1 ∧
        (∀ p ∈ ed_candidates name.text romanized,
          ed_of eng ((ed_candidates name.text romanized).getD i ("", "")) ≤
            ed_of eng p) ∧
        (∀ j, j < i →
          ed_of eng ((ed_candidates name.text romanized).getD i ("", "")) <
            ed_of eng ((ed_candidates name.text romanized).getD j ("", "")))) ∧
    (permute_lowest_one tanakaYuki "Tanaka Yuki").text = "Yuki Tanaka" := by
  constructor
  · intro name romanized eng heng hlb hub
    have hres : (permute_lowest_one name romanized).text =
        ((ed_candidates name.text romanized).foldl (ed_step eng)
          (none, name.text)).2 := by
      simp only [permute_lowest_one, heng, Option.getD_some]
      rw [if_pos ⟨hlb, hub⟩]
    rcases ed_foldl_spec eng (ed_candidates name.text romanized) none name.text
      with ⟨_, hall⟩ | ⟨i, hi, _, h2, _, hmin, hfirst⟩
    · exfalso
      have hlen := ed_candidates_length_pos name.text romanized
      have hmem : (ed_candidates name.text romanized).getD 0 ("", "") ∈
          ed_candidates name.text romanized := by
        rw [List.getD_eq_getElem _ _ hlen]
        exact List.getElem_mem hlen
      have := hall _ hmem
      simp [distLtB] at this
    · refine ⟨i, hi, ?_, hmin, hfirst⟩
      rw [hres]
      exact h2
  · decide

theorem c1_lowest_distance_argmin_witness :
    ∃ i, ∃ _hi : i < (ed_candidates tanakaYuki.text "Tanaka Yuki").length,
      (permute_lowest_one tanakaYuki "Tanaka Yuki").text =
        py_strip_cs ((ed_candidates tanakaYuki.text "Tanaka Yuki").getD
          i ("", "")).1 ∧
      (∀ p ∈ ed_candidates tanakaYuki.text "Tanaka Yuki",
        ed_of "Yuki Tanaka" ((ed_candidates tanakaYuki.text "Tanaka Yuki").getD
          i ("", "")) ≤ ed_of "Yuki Tanaka" p) ∧
      (∀ j, j < i →
        ed_of "Yuki Tanaka" ((ed_candidates tanakaYuki.text "Tanaka Yuki").getD
          i ("", "")) <
          ed_of "Yuki Tanaka" ((ed_candidates tanakaYuki.text "Tanaka Yuki").getD
            j ("", ""))) :=
  c1_lowest_distance_argmin.1 tanakaYuki "Tanaka Yuki" "Yuki Tanaka" rfl
    (by decide) (by decide)

/-- C1 counterexample: for the 2-token name `",x y"` (romanized `",x y"`,
English reference `",x y"`) the permuter stores `"x y"`, which is not any
token permutation of the name — so the permuter does not, as stated, return
the minimum-distance token permutation itself: it returns it with edge
commas and whitespace stripped. -/
theorem c1_counterexample :
    (permute_lowest_one commaName ",x y").text = "x y" ∧
      (permute_lowest_one commaName ",x y").text ∉
        permuted_of commaName.text := by decide

end ScriptAnalysis
